import Mathlib

/-!
Verification development for the core of autocrc (`src/autocrc.py`, module
docstring: "The core of autocrc. Performs the CRC-checks independent of what
kind of interface is used").

The Python source is shallowly embedded below: pure helpers become Lean
functions, file-system interaction becomes an explicit directory model, and
exceptions become `Except`.  Bytes are `Nat` (< 256), machine words are `Nat`
with explicit masking by `0xFFFFFFFF` where the source masks.  Characters are
modelled over the ASCII range that the source's regular expressions and
`.upper()`/`.lower()` calls actually exercise; the Unicode extensions of
Python's `\s`, `str.upper` and `str.lower` are outside the model.
-/

namespace Autocrc

/-! ## Character classes

`isHexD` embeds the regex character class `[a-fA-F0-9]`, `isWS` embeds `\s`
(ASCII part), used by `Model.parse` and `Model.parse_line`. -/

def hexChars : List Char :=
  ['a', 'b', 'c', 'd', 'e', 'f',
   'A', 'B', 'C', 'D', 'E', 'F',
   '0', '1', '2', '3', '4', '5', '6', '7', '8', '9']

def isHexD (c : Char) : Bool := hexChars.contains c

def isWS (c : Char) : Bool :=
  c == '\x09' || c == '\x0a' || c == '\x0b' || c == '\x0c' || c == '\x0d'
    || c == '\x20'

/-- Python `str.upper()` restricted to ASCII (the source only ever applies it
to strings of hex digits captured by `[a-fA-F0-9]{8}`). -/
def asciiUpper (c : Char) : Char :=
  if 'a' ≤ c ∧ c ≤ 'z' then Char.ofNat (c.toNat - 32) else c

/-- Python `str.lower()` restricted to ASCII. -/
def asciiLower (c : Char) : Char :=
  if 'A' ≤ c ∧ c ≤ 'Z' then Char.ofNat (c.toNat + 32) else c

def lowerStr (s : String) : String := (s.toList.map asciiLower).asString

/-! ## ChecksumCodec: `zlib.crc32` and `Model.crc32_of_file`

`zlib.crc32(buf, value)` is the reflected CRC-32 with polynomial
`0xEDB88320`: condition the running value with `xor 0xFFFFFFFF`, fold the
table step over the bytes, uncondition with `xor 0xFFFFFFFF`. -/

def crc32Round (c : Nat) : Nat :=
  if c % 2 = 1 then Nat.xor (c / 2) 0xEDB88320 else c / 2

/-- The CRC table entry for index `n` (8 rounds of the bit step). -/
def crcTable (n : Nat) : Nat :=
  crc32Round (crc32Round (crc32Round (crc32Round
    (crc32Round (crc32Round (crc32Round (crc32Round n)))))))

/-- One byte of the zlib CRC-32 update loop:
`crc = (crc >> 8) ^ table[(crc ^ b) & 0xff]`. -/
def crcByte (c b : Nat) : Nat :=
  Nat.xor (c / 256) (crcTable (Nat.xor c b % 256))

/-- `zlib.crc32(buf, value)`. -/
def zlibCrc32 (buf : List Nat) (value : Nat) : Nat :=
  Nat.xor (buf.foldl crcByte (Nat.xor value 0xFFFFFFFF)) 0xFFFFFFFF

/-- The uppercase hex digit for `n < 16` (`'0'`..`'9'`, `'A'`..`'F'`). -/
def hexDigit (n : Nat) : Char :=
  if n < 10 then Char.ofNat (48 + n) else Char.ofNat (55 + n)

/-- `hex(n)[2:].upper().zfill(8)` for `n < 2^32`: since the source masks the
value with `0xFFFFFFFF` first, the result always has exactly 8 digits. -/
def toHex8 (n : Nat) : String :=
  ⟨[hexDigit (n / 16 ^ 7 % 16), hexDigit (n / 16 ^ 6 % 16),
    hexDigit (n / 16 ^ 5 % 16), hexDigit (n / 16 ^ 4 % 16),
    hexDigit (n / 16 ^ 3 % 16), hexDigit (n / 16 ^ 2 % 16),
    hexDigit (n / 16 % 16), hexDigit (n % 16)]⟩

/-- Helper for `chunks`, structurally recursive on a fuel argument so that it
reduces inside the kernel; when `bs ≥ 1`, fuel `l.length` is always enough. -/
def chunksAux (bs : Nat) : Nat → List Nat → List (List Nat)
  | _, [] => []
  | 0, _ => []
  | fuel + 1, l =>
    if bs = 0 then [] else l.take bs :: chunksAux bs fuel (l.drop bs)

/-- The successive buffers returned by `map_.read(self.block_size)`: blocks of
`bs` bytes until the data runs out (`read(0)` returns the empty buffer at
once, so block size `0` yields no blocks, exactly as the `if not buf: break`
loop behaves). -/
def chunks (bs : Nat) (l : List Nat) : List (List Nat) :=
  chunksAux bs l.length l

/-- The content-level body of `Model.crc32_of_file`: stream the bytes in
blocks of `block_size` through `zlib.crc32`, starting from `current = 0`,
then `hex(current & 0xFFFFFFFF)[2:].upper().zfill(8)`. -/
def crc32_of_file (bytes : List Nat) (block_size : Nat) : String :=
  toHex8 (Nat.land ((chunks block_size bytes).foldl
    (fun current buf => zlibCrc32 buf current) 0) 0xFFFFFFFF)

/-! ## Flags

The option values produced by `AutoParser` (an `optparse.OptionParser`).
`-i` (long form `--ignore-case`) is declared with
`action="store_true", dest="case"`, so `case' = true` exactly when `-i` was
passed on the command line (`case` is a Lean keyword, hence the primed field
name).  `-x` (`--exchange`) is `store_true` into `exchange`; `-c` (`--no-crc`)
is `store_false` into `crc` with default `true`; `-s` (`--no-sfv`) is
`store_false` into `sfv` with default `true`. -/

structure Flags where
  case' : Bool
  exchange : Bool
  crc : Bool
  sfv : Bool
  recursive : Bool
  follow : Bool
  directory : Option String
deriving DecidableEq, Repr

/-! ## `Model.parse`: CRC embedded in a filename

The source tries, in order, the regexes
`.*?\[([a-fA-F0-9]{8})\].*?$`, `.*?\(([a-fA-F0-9]{8})\).*?$`,
`.*?_([a-fA-F0-9]{8})_.*?$` with `re.match` and returns
`crc.group(1).upper()` for the first that matches.

`re.match` anchors at the start; the lazy `.*?` prefix makes the engine try
positions left to right (`.` does not match a newline), and the trailing
`.*?$` succeeds exactly when the rest of the string contains no newline other
than, possibly, a single final one (`$` also matches just before a trailing
newline).  `findPat` implements exactly this scan. -/

def noNL (cs : List Char) : Bool := cs.all (fun c => c != '\n')

/-- Whether `.*?$` (no `re.MULTILINE`) matches the remaining characters. -/
def tailOK (cs : List Char) : Bool :=
  noNL cs ||
    (match cs.getLast? with
     | some '\n' => noNL cs.dropLast
     | _ => false)

/-- Scan for the leftmost full match of `opn` + 8 hex digits + `cls` whose
prefix has no newline and whose suffix satisfies `.*?$`; return the captured
hex digits. -/
def findPat (opn cls : Char) : List Char → Option (List Char)
  | [] => none
  | c :: rest =>
    if c == '\n' then none
    else if c == opn && (rest.take 8).length == 8 && (rest.take 8).all isHexD
            && (rest.drop 8).head? == some cls && tailOK (rest.drop 9) then
      some (rest.take 8)
    else findPat opn cls rest

/-- `Model.parse`: the CRC parsed from the filename, or none. -/
def parse (filename : String) : Option String :=
  let cs := filename.toList
  let crc :=
    match findPat '[' ']' cs with
    | some h => some h
    | none =>
      match findPat '(' ')' cs with
      | some h => some h
      | none => findPat '_' '_' cs
  crc.map (fun h => (h.map asciiUpper).asString)

/-! ## `Model.parse_line`: one line of an sfv-file

The regex is `([^;]+)\s([a-fA-F0-9]{8})\s*$`, again with `re.match`.  The
greedy group `([^;]+)` first consumes the longest `;`-free prefix and
backtracks one character at a time, so the successful split (if any) is the
one with the longest name. -/

/-- Whether `\s([a-fA-F0-9]{8})\s*$` matches the given suffix; returns the
captured hex digits. -/
def matchTail (cs : List Char) : Option (List Char) :=
  match cs with
  | [] => none
  | w :: rest =>
    if isWS w && (rest.take 8).length == 8 && (rest.take 8).all isHexD
        && (rest.drop 8).all isWS then
      some (rest.take 8)
    else none

/-- Backtracking of the greedy group `([^;]+)`: try name lengths `n`,
`n - 1`, ..., `1`. -/
def tryName (cs : List Char) : Nat → Option (List Char × List Char)
  | 0 => none
  | n + 1 =>
    match matchTail (cs.drop (n + 1)) with
    | some hex => some (cs.take (n + 1), hex)
    | none => tryName cs n

/-- Python `str.replace('\\', '/')` (character-wise). -/
def exchChar (c : Char) : Char := if c = '\\' then '/' else c

/-- `Model.parse_line`: the (filename, crc) pair parsed from an sfv line, or
none; the crc is uppercased and, in exchange mode, backslashes in the name
become forward slashes. -/
def parse_line (flags : Flags) (line : String) : Option (String × String) :=
  let cs := line.toList
  match tryName cs (cs.takeWhile (fun c => c != ';')).length with
  | none => none
  | some (name, hex) =>
    if flags.exchange then
      some ((name.map exchChar).asString, (hex.map asciiUpper).asString)
    else
      some (name.asString, (hex.map asciiUpper).asString)

/-! ## File-system model

A directory is modelled by the state of each name inside it (`files`) and by
the decoded text lines of each name (`lines`, consulted for `.sfv` files;
`open(..., errors='replace')` never fails on content, so reading lines is
total).  `FileState.absent` makes `open` raise `IOError` with `errno == 2`;
`FileState.unreadable e` makes it raise `IOError` with `errno = e` (e.g. 13
for a permission error on the `r+` open); `FileState.file c` opens normally
with byte content `c`.  Names are the strings used by the source itself
(`os.path.isfile(file_name)` after `chdir(dirname)`, and
`open(os.path.flatten(dirname, file_name))` address the same per-directory
namespace). -/

inductive FileState where
  | absent
  | unreadable (errno : Nat)
  | file (content : List Nat)
deriving DecidableEq, Repr

structure Dir where
  files : String → FileState
  lines : String → List String

/-- `os.path.isfile`. -/
def isfile : FileState → Bool
  | .absent => false
  | _ => true

/-- The exceptions the verification loop can see: `IOError` (= `OSError`)
with its `errno`, and the `ValueError` that `mmap.mmap` raises on an empty
file. -/
inductive PyErr where
  | ioError (errno : Nat)
  | valueError
deriving DecidableEq, Repr

/-! ## Python `dict`

Insertion-ordered association list: writing an existing key updates it in
place, a new key is appended. -/

def dictInsert (m : List (String × String)) (k v : String) :
    List (String × String) :=
  match m with
  | [] => [(k, v)]
  | (k', v') :: rest =>
    if k' = k then (k, v) :: rest else (k', v') :: dictInsert rest k v

def dictGet (m : List (String × String)) (k : String) : Option String :=
  match m with
  | [] => none
  | (k', v) :: rest => if k' = k then some v else dictGet rest k

/-! ## `Model.get_crcs` -/

/-- `file_name.lower().endswith('.sfv')`. -/
def isSfvName (n : String) : Bool :=
  List.isSuffixOf ".sfv".toList (lowerStr n).toList

/-- The `no_case_files` dictionary: lowercase name ↦ real on-disk name.  The
source builds it only under `if not self.flags.case`; building it
unconditionally is observationally identical because it is only read under
the same guard. -/
def noCaseFiles (fileList : List String) : List (String × String) :=
  fileList.foldl (fun m n => dictInsert m (lowerStr n) n) []

/-- One line of the sfv loop body: parse the line and, if it parsed, store
the crc — under the real on-disk name when `not flags.case` and the lowercase
name is a known file, under the parsed name otherwise. -/
def procLine (flags : Flags) (ncf : List (String × String))
    (crcs : List (String × String)) (line : String) :
    List (String × String) :=
  match parse_line flags line with
  | none => crcs
  | some (file_name, crc) =>
    match flags.case', dictGet ncf (lowerStr file_name) with
    | false, some real => dictInsert crcs real crc
    | _, _ => dictInsert crcs file_name crc

/-- The candidate regular files of `get_crcs`. -/
def existingFiles (d : Dir) (file_names : List String) : List String :=
  file_names.filter (fun n => isfile (d.files n))

/-- The sfv pass of `get_crcs` (guarded by `if sfv_files and self.flags.sfv`),
starting from the empty dict. -/
def sfvPass (flags : Flags) (d : Dir) (fileList : List String) :
    List (String × String) :=
  let sfv_files := fileList.filter isSfvName
  if ¬sfv_files.isEmpty ∧ flags.sfv then
    sfv_files.foldl
      (fun crcs sfv_file =>
        (d.lines sfv_file).foldl (procLine flags (noCaseFiles fileList)) crcs)
      []
  else []

/-- The filename pass of `get_crcs` (guarded by `if self.flags.crc`),
applied after the sfv pass. -/
def crcPass (fileList : List String) (crcs : List (String × String)) :
    List (String × String) :=
  fileList.foldl
    (fun crcs file =>
      match parse file with
      | some crc => dictInsert crcs file crc
      | none => crcs)
    crcs

/-- `Model.get_crcs` (its dictionary result; the `os.chdir` side effects are
modelled separately by `get_crcs_cwd`). -/
def get_crcs (flags : Flags) (d : Dir) (file_names : List String) :
    List (String × String) :=
  let fileList := existingFiles d file_names
  let afterSfv := sfvPass flags d fileList
  if flags.crc then crcPass fileList afterSfv else afterSfv

/-- The working-directory side effects of `Model.get_crcs`:
`old_cwd = os.getcwd(); os.chdir(dirname); ...; os.chdir(old_cwd)`.
Returns the dictionary, the final working directory, and the trace of
working-directory values observable during the call (initial value, value
after the first `chdir`, value after the final `chdir`). -/
def get_crcs_cwd (flags : Flags) (d : Dir) (dirname : String)
    (file_names : List String) (cwd : String) :
    List (String × String) × String × List String :=
  let old_cwd := cwd
  (get_crcs flags d file_names, old_cwd, [cwd, dirname, old_cwd])

/-! ## `Status` -/

structure Status where
  nr_missing : Nat
  nr_different : Nat
  nr_successful : Nat
  nr_read_errors : Nat
  nr_dirs : Nat
  nr_files : Nat
deriving DecidableEq, Repr

/-- `Status.__init__(self, nr_files=0)`. -/
def Status.init (nr_files : Nat := 0) : Status :=
  { nr_missing := 0, nr_different := 0, nr_successful := 0,
    nr_read_errors := 0, nr_dirs := 0, nr_files := nr_files }

/-- `Status.update`: add the counters of another `Status` (and `nr_dirs += 1`). -/
def Status.update (s other : Status) : Status :=
  { nr_missing := s.nr_missing + other.nr_missing,
    nr_different := s.nr_different + other.nr_different,
    nr_successful := s.nr_successful + other.nr_successful,
    nr_read_errors := s.nr_read_errors + other.nr_read_errors,
    nr_dirs := s.nr_dirs + 1,
    nr_files := s.nr_files + other.nr_files }

/-- `Status.everything_ok`:
`self.nr_read_errors == self.nr_different == self.nr_missing == 0`. -/
def Status.everything_ok (s : Status) : Bool :=
  s.nr_read_errors == 0 && s.nr_different == 0 && s.nr_missing == 0

/-! ## `Model.check_dir` and the hook calls -/

/-- The hook methods the engine calls (subclasses render them). -/
inductive Event where
  | directoryStart (dirname : String)
  | fileOk (filename : String)
  | fileMissing (filename : String)
  | fileReadError (filename : String)
  | fileDifferent (filename crc real_crc : String)
  | directoryEnd
deriving DecidableEq, Repr

/-- `Model.crc32_of_file` on the file-system model: `open(filepath, 'r+')`
raises `IOError` with the state's errno when the name is absent or
unreadable; `mmap.mmap(file_.fileno(), 0, ...)` raises `ValueError`
("cannot mmap an empty file") when the file is empty; otherwise the content
is streamed through `zlib.crc32` in blocks. -/
def crc32_of_file_fs (d : Dir) (name : String) (block_size : Nat) :
    Except PyErr String :=
  match d.files name with
  | .absent => .error (.ioError 2)
  | .unreadable e => .error (.ioError e)
  | .file content =>
    if content.isEmpty then .error .valueError
    else .ok (crc32_of_file content block_size)

/-- One iteration of the `for file_name, crc in sorted(crcs.items())` loop:
classify the file, bump the matching counter, fire the matching hook.  Only
`IOError` is caught (`except IOError as e`); any other exception propagates. -/
def checkFile (d : Dir) (block_size : Nat) (acc : Status × List Event)
    (p : String × String) : Except PyErr (Status × List Event) :=
  match crc32_of_file_fs d p.1 block_size with
  | .error (.ioError errno) =>
    if errno = 2 then
      .ok ({ acc.1 with nr_missing := acc.1.nr_missing + 1 },
           acc.2 ++ [.fileMissing p.1])
    else
      .ok ({ acc.1 with nr_read_errors := acc.1.nr_read_errors + 1 },
           acc.2 ++ [.fileReadError p.1])
  | .error .valueError => .error .valueError
  | .ok real_crc =>
    if p.2 = real_crc then
      .ok ({ acc.1 with nr_successful := acc.1.nr_successful + 1 },
           acc.2 ++ [.fileOk p.1])
    else
      .ok ({ acc.1 with nr_different := acc.1.nr_different + 1 },
           acc.2 ++ [.fileDifferent p.1 p.2 real_crc])

/-- The file loop of `check_dir`. -/
def foldFiles (d : Dir) (block_size : Nat) (acc : Status × List Event) :
    List (String × String) → Except PyErr (Status × List Event)
  | [] => .ok acc
  | p :: ps =>
    match checkFile d block_size acc p with
    | .error e => .error e
    | .ok acc' => foldFiles d block_size acc' ps

/-- Lexicographic order on code points — how Python compares the `str` keys
when sorting `crcs.items()` (the keys of a dict are unique, so the key
comparison alone decides the order of the item tuples). -/
def charsLt : List Char → List Char → Bool
  | [], [] => false
  | [], _ :: _ => true
  | _ :: _, [] => false
  | a :: as, b :: bs =>
    if a < b then true else if b < a then false else charsLt as bs

def strLt (a b : String) : Bool := charsLt a.toList b.toList

/-- Insertion into a list sorted by key. -/
def insertSorted (p : String × String) :
    List (String × String) → List (String × String)
  | [] => [p]
  | q :: qs => if strLt p.1 q.1 then p :: q :: qs else q :: insertSorted p qs

/-- `sorted(crcs.items())`: the dict items sorted by key (keys are unique,
so the key order alone determines the result). -/
def sortByKey (l : List (String × String)) : List (String × String) :=
  l.foldr insertSorted []

/-- `Model.check_dir`: resolve the expected checksums, and when the mapping
is non-empty verify each file in sorted order, accumulating a fresh
per-directory `Status` and firing the hooks.  Returns `none` when the
mapping was empty (nothing happens), and the final directory status together
with the fired hook calls otherwise; an uncaught exception aborts. -/
def check_dir (flags : Flags) (d : Dir) (dirname : String)
    (file_names : List String) (block_size : Nat) :
    Except PyErr (Option (Status × List Event)) :=
  let crcs := get_crcs flags d file_names
  if crcs.isEmpty then .ok none
  else
    match foldFiles d block_size
        (Status.init crcs.length, [.directoryStart dirname])
        (sortByKey crcs) with
    | .error e => .error e
    | .ok (dir_stat, evs) => .ok (some (dir_stat, evs ++ [.directoryEnd]))

/-! ## The run loop

`Model.run` enumerates verification units (explicit files grouped by parent
directory, then directory arguments, optionally walked recursively) and calls
`check_dir` on each, while `self.total_stat` — created once in
`Model.__init__` — is updated by `check_dir` as each directory completes.
`runUnits` is that engine loop over an explicit unit list, with the
`total_stat` mutation made explicit in the accumulator. -/

structure RunUnit where
  dirname : String
  dir : Dir
  file_names : List String

def runUnits (flags : Flags) (block_size : Nat) :
    Status × List Event → List RunUnit → Except PyErr (Status × List Event)
  | acc, [] => .ok acc
  | acc, u :: us =>
    match check_dir flags u.dir u.dirname u.file_names block_size with
    | .error e => .error e
    | .ok none => runUnits flags block_size acc us
    | .ok (some (dir_stat, evs)) =>
      runUnits flags block_size (acc.1.update dir_stat, acc.2 ++ evs) us

/-- A whole run over the given units, starting from the fresh
`total_stat = Status()` of `Model.__init__`. -/
def run (flags : Flags) (block_size : Nat) (units : List RunUnit) :
    Except PyErr (Status × List Event) :=
  runUnits flags block_size (Status.init 0, []) units

/-- The per-directory statuses of the units that completed (non-empty
mapping, no uncaught exception). -/
def unitStats (flags : Flags) (block_size : Nat) (units : List RunUnit) :
    List Status :=
  units.filterMap fun u =>
    match check_dir flags u.dir u.dirname u.file_names block_size with
    | .ok (some (dir_stat, _)) => some dir_stat
    | _ => none

/-! ## Event counters -/

def cntMissing : List Event → Nat
  | [] => 0
  | .fileMissing _ :: r => cntMissing r + 1
  | _ :: r => cntMissing r

def cntDifferent : List Event → Nat
  | [] => 0
  | .fileDifferent _ _ _ :: r => cntDifferent r + 1
  | _ :: r => cntDifferent r

def cntReadError : List Event → Nat
  | [] => 0
  | .fileReadError _ :: r => cntReadError r + 1
  | _ :: r => cntReadError r

def cntOk : List Event → Nat
  | [] => 0
  | .fileOk _ :: r => cntOk r + 1
  | _ :: r => cntOk r

/-! ## Spec-side characterizations

These predicates restate the spec's reading of the two regular expressions;
the theorems below relate them to the scanners embedded from the source. -/

/-- An uppercase hex digit (what `expected checksum` strings consist of). -/
def isUpperHex (c : Char) : Bool := c.isDigit || ('A' ≤ c && c ≤ 'F')

/-- The spec's description of a filename-embedded checksum: somewhere in the
name, `opn`, exactly 8 hex digits, `cls` — with the newline constraints the
anchored regex imposes on the surrounding text. -/
def occursPat (opn cls : Char) (cs : List Char) : Prop :=
  ∃ pre h suf, cs = pre ++ opn :: (h ++ cls :: suf) ∧ noNL pre = true ∧
    h.length = 8 ∧ h.all isHexD = true ∧ tailOK suf = true

/-- The spec's description of an accepted list-file line: a non-empty name
free of the `;` separator, a single whitespace character, exactly 8 hex
digits, optional trailing whitespace. -/
def goodLine (cs : List Char) : Prop :=
  ∃ name w hex trail, cs = name ++ w :: (hex ++ trail) ∧ name ≠ [] ∧
    (∀ c ∈ name, c ≠ ';') ∧ isWS w = true ∧ hex.length = 8 ∧
    hex.all isHexD = true ∧ trail.all isWS = true

/-! ## Concrete fixtures used by the closed evaluations and witnesses -/

/-- Flags as parsed from a command line carrying `-i` (so `case = True`),
with the default `crc = sfv = True`. -/
def flagsWithI : Flags :=
  { case' := true, exchange := false, crc := true, sfv := true,
    recursive := false, follow := false, directory := none }

/-- Flags as parsed from a command line without `-i` (so `case` is falsy),
with the default `crc = sfv = True`. -/
def flagsNoI : Flags :=
  { case' := false, exchange := false, crc := true, sfv := true,
    recursive := false, follow := false, directory := none }

/-- A directory holding the on-disk file `file.bin` and a list file
`check.sfv` whose single entry names `FILE.BIN`. -/
def dirCase : Dir where
  files := fun n =>
    if n = "file.bin" then .file [104]
    else if n = "check.sfv" then .file [59]
    else .absent
  lines := fun n => if n = "check.sfv" then ["FILE.BIN 12345678\n"] else []

/-- A directory holding a single zero-length file whose name embeds the CRC
of the empty byte sequence. -/
def dirEmptyFile : Dir where
  files := fun n => if n = "empty_00000000_.bin" then .file [] else .absent
  lines := fun _ => []

/-- A directory holding only a list file that references `ghost.bin`, a name
with no on-disk file. -/
def dirGhost : Dir where
  files := fun n => if n = "check.sfv" then .file [59] else .absent
  lines := fun n => if n = "check.sfv" then ["ghost.bin 12345678\n"] else []

/-- A directory holding `ok[3610A686].bin` with content `"hello"` (whose
CRC-32 is `3610A686`) and a list file referencing the absent `gone.bin`. -/
def dirMixed : Dir where
  files := fun n =>
    if n = "ok[3610A686].bin" then .file [104, 101, 108, 108, 111]
    else if n = "m.sfv" then .file [59]
    else .absent
  lines := fun n => if n = "m.sfv" then ["gone.bin 11111111\n"] else []

/-- A directory with nothing in it. -/
def dirBare : Dir where
  files := fun _ => .absent
  lines := fun _ => []

/-- A directory holding only `ok[3610A686].bin` with content `"hello"`. -/
def dirOk : Dir where
  files := fun n =>
    if n = "ok[3610A686].bin" then .file [104, 101, 108, 108, 111]
    else .absent
  lines := fun _ => []

/-- A directory where the same file name gets a checksum from both sources:
`dup[12345678].bin` carries `12345678` in its name and is listed in
`check.sfv` with `90ABCDEF`. -/
def dirDup : Dir where
  files := fun n =>
    if n = "dup[12345678].bin" then .file [104]
    else if n = "check.sfv" then .file [59]
    else .absent
  lines := fun n =>
    if n = "check.sfv" then ["dup[12345678].bin 90ABCDEF\n"] else []

/-! # Theorems -/

/-! ## ChecksumCodec lemmas -/

theorem xor_xor_cancel (a b : Nat) : Nat.xor (Nat.xor a b) b = a := by
  show a ^^^ b ^^^ b = a
  rw [Nat.xor_assoc, Nat.xor_self, Nat.xor_zero]

/-- `zlib.crc32` over a concatenation is the same as resuming from the
running value. -/
theorem zlibCrc32_append (a b : List Nat) (value : Nat) :
    zlibCrc32 (a ++ b) value = zlibCrc32 b (zlibCrc32 a value) := by
  unfold zlibCrc32
  rw [List.foldl_append, xor_xor_cancel]

theorem zlibCrc32_nil (value : Nat) : zlibCrc32 [] value = value := by
  unfold zlibCrc32
  simp only [List.foldl_nil]
  exact xor_xor_cancel value 0xFFFFFFFF

/-- Folding `zlib.crc32` block by block equals one shot over the
concatenation. -/
theorem foldl_zlibCrc32_flatten (blocks : List (List Nat)) (value : Nat) :
    blocks.foldl (fun current buf => zlibCrc32 buf current) value
      = zlibCrc32 blocks.flatten value := by
  induction blocks generalizing value with
  | nil => simp [zlibCrc32_nil]
  | cons b bl ih =>
    simp only [List.foldl_cons, List.flatten_cons]
    rw [ih (zlibCrc32 b value), zlibCrc32_append]

theorem chunksAux_flatten (bs : Nat) (hbs : 0 < bs) :
    ∀ (fuel : Nat) (l : List Nat), l.length ≤ fuel →
      (chunksAux bs fuel l).flatten = l := by
  intro fuel
  induction fuel with
  | zero =>
    intro l hl
    have : l = [] := List.eq_nil_of_length_eq_zero (Nat.le_zero.mp hl)
    subst this
    rfl
  | succ n ih =>
    intro l hl
    cases l with
    | nil => rfl
    | cons c cs =>
      show (chunksAux bs (n + 1) (c :: cs)).flatten = c :: cs
      rw [show chunksAux bs (n + 1) (c :: cs)
            = if bs = 0 then []
              else (c :: cs).take bs :: chunksAux bs n ((c :: cs).drop bs)
          from rfl]
      rw [if_neg (Nat.pos_iff_ne_zero.mp hbs)]
      simp only [List.flatten_cons]
      rw [ih ((c :: cs).drop bs)]
      · exact List.take_append_drop bs (c :: cs)
      · have h1 : ((c :: cs).drop bs).length = (c :: cs).length - bs :=
          List.length_drop bs (c :: cs)
        have h2 : (c :: cs).length - bs ≤ (c :: cs).length - 1 :=
          Nat.sub_le_sub_left hbs (c :: cs).length
        omega

theorem chunks_flatten (bs : Nat) (hbs : 0 < bs) (l : List Nat) :
    (chunks bs l).flatten = l :=
  chunksAux_flatten bs hbs l.length l (Nat.le_refl _)

/-- C2: for every byte sequence and every partition of it into consecutive
blocks, folding the 32-bit checksum block-by-block from the initial state
(as `crc32_of_file` does with its fixed-size blocks) yields the same final
8-uppercase-hex-digit string as computing the checksum over the whole
sequence in one shot; the block size never affects the result. -/
theorem crc32_streaming_equivalence :
    (∀ blocks : List (List Nat),
      toHex8 (Nat.land
          (blocks.foldl (fun current buf => zlibCrc32 buf current) 0)
          0xFFFFFFFF)
        = toHex8 (Nat.land (zlibCrc32 blocks.flatten 0) 0xFFFFFFFF))
    ∧ (∀ (bytes : List Nat) (block_size : Nat), 0 < block_size →
        crc32_of_file bytes block_size
          = toHex8 (Nat.land (zlibCrc32 bytes 0) 0xFFFFFFFF)) := by
  constructor
  · intro blocks
    rw [foldl_zlibCrc32_flatten]
  · intro bytes bs hbs
    unfold crc32_of_file
    rw [foldl_zlibCrc32_flatten, chunks_flatten bs hbs]

/-- Witness for C2: streaming the five bytes of `"hello"` in blocks of two
equals the one-shot checksum. -/
theorem crc32_streaming_equivalence_witness :
    0 < 2 ∧ crc32_of_file [104, 101, 108, 108, 111] 2
      = toHex8 (Nat.land (zlibCrc32 [104, 101, 108, 108, 111] 0) 0xFFFFFFFF) :=
  ⟨by decide,
   crc32_streaming_equivalence.2 [104, 101, 108, 108, 111] 2 (by decide)⟩

/-! ## `Model.parse` lemmas -/

/-- From a decomposition `rest = h ++ cls :: suf` with `h.length = 8`,
compute the take/drop views the scanner's guard inspects. -/
theorem decomp_take_drop {cls : Char} {rest h suf : List Char}
    (hrest : rest = h ++ cls :: suf) (hlen : h.length = 8) :
    rest.take 8 = h ∧ rest.drop 8 = cls :: suf ∧ rest.drop 9 = suf := by
  subst hrest
  refine ⟨List.take_left' hlen, List.drop_left' hlen, ?_⟩
  have h1 : ((h ++ cls :: suf).drop 8).tail = (h ++ cls :: suf).drop 9 :=
    List.tail_drop _ 8
  rw [List.drop_left' hlen] at h1
  exact h1.symm

theorem findPat_isSome_iff (opn cls : Char) (hop : opn ≠ '\n')
    (cs : List Char) : (findPat opn cls cs).isSome = true ↔ occursPat opn cls cs := by
  induction cs with
  | nil =>
    constructor
    · intro h
      simp [findPat] at h
    · rintro ⟨pre, h, suf, heq, -, -, -, -⟩
      cases pre <;> simp at heq
  | cons c rest ih =>
    rw [findPat]
    by_cases hnl : (c == '\n') = true
    · rw [if_pos hnl]
      have hc : c = '\n' := by simpa using hnl
      constructor
      · intro hsome
        simp at hsome
      · rintro ⟨pre, h, suf, heq, hpre, hlen, hhex, htail⟩
        exfalso
        cases pre with
        | nil =>
          simp only [List.nil_append] at heq
          injection heq with h1 _
          exact hop (h1 ▸ hc ▸ rfl)
        | cons p ps =>
          simp only [List.cons_append] at heq
          injection heq with h1 _
          simp only [noNL, List.all_cons, Bool.and_eq_true, bne_iff_ne, ne_eq] at hpre
          exact hpre.1 (h1 ▸ hc)
    · rw [if_neg hnl]
      by_cases hg : (c == opn && (rest.take 8).length == 8 && (rest.take 8).all isHexD
          && (rest.drop 8).head? == some cls && tailOK (rest.drop 9)) = true
      · rw [if_pos hg]
        constructor
        · intro _
          have hg' := hg
          simp only [Bool.and_eq_true, beq_iff_eq] at hg'
          obtain ⟨⟨⟨⟨hco, hlen⟩, hhex⟩, hcls⟩, htail⟩ := hg'
          cases hdrop : rest.drop 8 with
          | nil => rw [hdrop] at hcls; simp at hcls
          | cons d ds =>
            rw [hdrop] at hcls
            simp only [List.head?_cons, Option.some.injEq] at hcls
            have hds : ds = rest.drop 9 := by
              have h1 : (rest.drop 8).tail = rest.drop 9 := List.tail_drop rest 8
              rw [hdrop] at h1
              simpa using h1
            refine ⟨[], rest.take 8, rest.drop 9, ?_, by decide, hlen, hhex, htail⟩
            rw [List.nil_append, ← hco]
            have hre : rest = rest.take 8 ++ rest.drop 8 :=
              (List.take_append_drop 8 rest).symm
            rw [hdrop, hcls, hds] at hre
            rw [← hre]
        · intro _
          simp
      · rw [if_neg hg, ih]
        constructor
        · rintro ⟨pre, h, suf, heq, hpre, hlen, hhex, htail⟩
          refine ⟨c :: pre, h, suf, by rw [List.cons_append, ← heq], ?_, hlen, hhex, htail⟩
          simp only [noNL, List.all_cons, Bool.and_eq_true, bne_iff_ne, ne_eq]
          exact ⟨by simpa using hnl, by simpa [noNL] using hpre⟩
        · rintro ⟨pre, h, suf, heq, hpre, hlen, hhex, htail⟩
          cases pre with
          | nil =>
            exfalso
            simp only [List.nil_append, List.cons.injEq] at heq
            obtain ⟨hco, hrest⟩ := heq
            obtain ⟨ht8, hd8, hd9⟩ := decomp_take_drop hrest hlen
            apply hg
            simp only [Bool.and_eq_true, beq_iff_eq]
            exact ⟨⟨⟨⟨hco, by rw [ht8, hlen]⟩, by rw [ht8]; exact hhex⟩,
              by rw [hd8]; rfl⟩, by rw [hd9]; exact htail⟩
          | cons p ps =>
            simp only [List.cons_append, List.cons.injEq] at heq
            simp only [noNL, List.all_cons, Bool.and_eq_true, bne_iff_ne, ne_eq] at hpre
            exact ⟨ps, h, suf, heq.2, by simpa [noNL] using hpre.2, hlen, hhex, htail⟩

/-- The captured group of a successful scan is 8 hex characters. -/
theorem findPat_some_props {opn cls : Char} {cs h : List Char}
    (hfp : findPat opn cls cs = some h) :
    h.length = 8 ∧ h.all isHexD = true := by
  induction cs with
  | nil => simp [findPat] at hfp
  | cons c rest ih =>
    rw [findPat] at hfp
    by_cases hnl : (c == '\n') = true
    · rw [if_pos hnl] at hfp
      cases hfp
    · rw [if_neg hnl] at hfp
      by_cases hg : (c == opn && (rest.take 8).length == 8 && (rest.take 8).all isHexD
          && (rest.drop 8).head? == some cls && tailOK (rest.drop 9)) = true
      · rw [if_pos hg] at hfp
        injection hfp with hfp'
        subst hfp'
        simp only [Bool.and_eq_true, beq_iff_eq] at hg
        exact ⟨hg.1.1.1.2, hg.1.1.2⟩
      · rw [if_neg hg] at hfp
        exact ih hfp

/-- Uppercasing a hex character yields an uppercase hex character. -/
theorem isUpperHex_asciiUpper {c : Char} (h : isHexD c = true) :
    isUpperHex (asciiUpper c) = true := by
  have hm : c ∈ hexChars := by
    simpa [isHexD, List.contains_iff_exists_mem_beq] using h
  fin_cases hm <;> decide

/-- `Model.parse` unfolded: the or-chain of the three pattern scans, then
`.upper()` on the captured group. -/
theorem parse_eq (s : String) :
    parse s = Option.map (fun h => (h.map asciiUpper).asString)
      ((match findPat '[' ']' s.toList with
        | some h => some h
        | none =>
          match findPat '(' ')' s.toList with
          | some h => some h
          | none => findPat '_' '_' s.toList : Option (List Char))) := rfl

/-- C7: `Model.parse` tries the three patterns `[HHHHHHHH]`, `(HHHHHHHH)`,
`_HHHHHHHH_` (8 hex digits, case-insensitive) in that priority order,
returns the uppercased captured digits of the first pattern that matches,
and returns nothing when no pattern matches. -/
theorem parse_pattern_priority (s : String) :
    ((parse s).isSome = true ↔
      (occursPat '[' ']' s.toList ∨ occursPat '(' ')' s.toList ∨
        occursPat '_' '_' s.toList))
    ∧ (occursPat '[' ']' s.toList →
        parse s = (findPat '[' ']' s.toList).map
          (fun h => (h.map asciiUpper).asString))
    ∧ (¬ occursPat '[' ']' s.toList → occursPat '(' ')' s.toList →
        parse s = (findPat '(' ')' s.toList).map
          (fun h => (h.map asciiUpper).asString))
    ∧ (¬ occursPat '[' ']' s.toList → ¬ occursPat '(' ')' s.toList →
        parse s = (findPat '_' '_' s.toList).map
          (fun h => (h.map asciiUpper).asString))
    ∧ (∀ r, parse s = some r →
        r.toList.length = 8 ∧ r.toList.all isUpperHex = true) := by
  have props : ∀ (v : List Char) (r : String),
      v.length = 8 → v.all isHexD = true →
      some ((v.map asciiUpper).asString) = some r →
      r.toList.length = 8 ∧ r.toList.all isUpperHex = true := by
    intro v r hlen hhex hr
    injection hr with hr'
    subst hr'
    have ht : ((v.map asciiUpper).asString).toList = v.map asciiUpper := rfl
    rw [ht]
    constructor
    · rw [List.length_map]
      exact hlen
    · rw [List.all_map]
      exact List.all_eq_true.mpr fun c hc =>
        isUpperHex_asciiUpper (List.all_eq_true.mp hhex c hc)
  have e1 := findPat_isSome_iff '[' ']' (by decide) s.toList
  have e2 := findPat_isSome_iff '(' ')' (by decide) s.toList
  have e3 := findPat_isSome_iff '_' '_' (by decide) s.toList
  cases h1 : findPat '[' ']' s.toList with
  | some v1 =>
    have o1 : occursPat '[' ']' s.toList := e1.mp (by rw [h1]; rfl)
    have hp : parse s = some ((v1.map asciiUpper).asString) := by
      simp only [parse_eq, h1, Option.map_some']
    refine ⟨⟨fun _ => Or.inl o1, fun _ => by rw [hp]; rfl⟩,
      fun _ => by rw [hp]; rfl, fun ho1 _ => absurd o1 ho1,
      fun ho1 _ => absurd o1 ho1, fun r hr => ?_⟩
    obtain ⟨hlen, hhex⟩ := findPat_some_props h1
    exact props v1 r hlen hhex (hp ▸ hr)
  | none =>
    have o1f : ¬ occursPat '[' ']' s.toList := fun o => by
      have hx := e1.mpr o
      rw [h1] at hx
      exact Bool.noConfusion hx
    cases h2 : findPat '(' ')' s.toList with
    | some v2 =>
      have o2 : occursPat '(' ')' s.toList := e2.mp (by rw [h2]; rfl)
      have hp : parse s = some ((v2.map asciiUpper).asString) := by
        simp only [parse_eq, h1, h2, Option.map_some']
      refine ⟨⟨fun _ => Or.inr (Or.inl o2), fun _ => by rw [hp]; rfl⟩,
        fun o1 => absurd o1 o1f, fun _ _ => by rw [hp]; rfl,
        fun _ ho2 => absurd o2 ho2, fun r hr => ?_⟩
      obtain ⟨hlen, hhex⟩ := findPat_some_props h2
      exact props v2 r hlen hhex (hp ▸ hr)
    | none =>
      have o2f : ¬ occursPat '(' ')' s.toList := fun o => by
        have hx := e2.mpr o
        rw [h2] at hx
        exact Bool.noConfusion hx
      cases h3 : findPat '_' '_' s.toList with
      | some v3 =>
        have o3 : occursPat '_' '_' s.toList := e3.mp (by rw [h3]; rfl)
        have hp : parse s = some ((v3.map asciiUpper).asString) := by
          simp only [parse_eq, h1, h2, h3, Option.map_some']
        refine ⟨⟨fun _ => Or.inr (Or.inr o3), fun _ => by rw [hp]; rfl⟩,
          fun o1 => absurd o1 o1f, fun _ o2 => absurd o2 o2f,
          fun _ _ => by rw [hp]; rfl, fun r hr => ?_⟩
        obtain ⟨hlen, hhex⟩ := findPat_some_props h3
        exact props v3 r hlen hhex (hp ▸ hr)
      | none =>
        have o3f : ¬ occursPat '_' '_' s.toList := fun o => by
          have hx := e3.mpr o
          rw [h3] at hx
          exact Bool.noConfusion hx
        have hp : parse s = none := by
          simp only [parse_eq, h1, h2, h3, Option.map_none']
        refine ⟨⟨fun hs => ?_, fun hor => ?_⟩,
          fun o1 => absurd o1 o1f, fun _ o2 => absurd o2 o2f,
          fun _ _ => by rw [hp]; rfl,
          fun r hr => by rw [hp] at hr; cases hr⟩
        · rw [hp] at hs
          exact Bool.noConfusion hs
        · rcases hor with o | o | o
          · exact absurd o o1f
          · exact absurd o o2f
          · exact absurd o o3f

/-- Witness for C7 at `"photo(1a2b3c4D).jpg"`: no `[...]` pattern occurs, a
`(...)` pattern occurs, and the result is the uppercased captured group. -/
theorem parse_pattern_priority_witness :
    parse "photo(1a2b3c4D).jpg" = some "1A2B3C4D" := by
  have h := (parse_pattern_priority "photo(1a2b3c4D).jpg").2.2.1
  have hno : ¬ occursPat '[' ']' "photo(1a2b3c4D).jpg".toList := by
    intro o
    have hx := (findPat_isSome_iff '[' ']' (by decide)
      "photo(1a2b3c4D).jpg".toList).mpr o
    revert hx
    decide
  have hyes : occursPat '(' ')' "photo(1a2b3c4D).jpg".toList := by
    refine ⟨"photo".toList, "1a2b3c4D".toList, ".jpg".toList, ?_, ?_, ?_, ?_, ?_⟩
      <;> decide
  rw [h hno hyes]
  decide

/-! ## `Model.parse_line` lemmas -/

theorem matchTail_sound {cs hex : List Char} (hmt : matchTail cs = some hex) :
    ∃ w trail, cs = w :: (hex ++ trail) ∧ isWS w = true ∧ hex.length = 8 ∧
      hex.all isHexD = true ∧ trail.all isWS = true := by
  cases cs with
  | nil => cases hmt
  | cons w rest =>
    rw [matchTail] at hmt
    by_cases hg : (isWS w && (rest.take 8).length == 8 && (rest.take 8).all isHexD
        && (rest.drop 8).all isWS) = true
    · rw [if_pos hg] at hmt
      injection hmt with hmt'
      subst hmt'
      simp only [Bool.and_eq_true, beq_iff_eq] at hg
      exact ⟨w, rest.drop 8, by rw [List.take_append_drop], hg.1.1.1,
        hg.1.1.2, hg.1.2, hg.2⟩
    · rw [if_neg hg] at hmt
      cases hmt

theorem matchTail_complete {w : Char} {hex trail : List Char}
    (hw : isWS w = true) (hlen : hex.length = 8) (hhex : hex.all isHexD = true)
    (htrail : trail.all isWS = true) :
    matchTail (w :: (hex ++ trail)) = some hex := by
  rw [matchTail]
  have ht : (hex ++ trail).take 8 = hex := List.take_left' hlen
  have hd : (hex ++ trail).drop 8 = trail := List.drop_left' hlen
  rw [if_pos]
  · rw [ht]
  · simp only [Bool.and_eq_true, beq_iff_eq, ht, hd]
    exact ⟨⟨⟨hw, hlen⟩, hhex⟩, htrail⟩

theorem tryName_sound {cs name hex : List Char} :
    ∀ {n : Nat}, tryName cs n = some (name, hex) →
      ∃ k, 1 ≤ k ∧ k ≤ n ∧ name = cs.take k ∧ matchTail (cs.drop k) = some hex := by
  intro n
  induction n with
  | zero => intro h; cases h
  | succ m ih =>
    intro h
    rw [tryName] at h
    cases hmt : matchTail (cs.drop (m + 1)) with
    | some hx =>
      rw [hmt] at h
      injection h with h'
      obtain ⟨h1, h2⟩ := Prod.mk.injEq .. ▸ h'
      exact ⟨m + 1, Nat.succ_le_succ (Nat.zero_le m), Nat.le_refl _,
        h1.symm, by rw [hmt, h2]⟩
    | none =>
      rw [hmt] at h
      obtain ⟨k, hk1, hk2, hk3, hk4⟩ := ih h
      exact ⟨k, hk1, Nat.le_succ_of_le hk2, hk3, hk4⟩

theorem tryName_complete {cs : List Char} {k : Nat} (hk1 : 1 ≤ k) :
    ∀ {n : Nat}, k ≤ n → (matchTail (cs.drop k)).isSome = true →
      (tryName cs n).isSome = true := by
  intro n
  induction n with
  | zero => intro hkn; omega
  | succ m ih =>
    intro hkn hsome
    rw [tryName]
    cases hmt : matchTail (cs.drop (m + 1)) with
    | some hx => rfl
    | none =>
      have hkm : k ≤ m := by
        rcases Nat.lt_or_ge k (m + 1) with hlt | hge
        · omega
        · exfalso
          have hkeq : k = m + 1 := Nat.le_antisymm hkn hge
          rw [hkeq, hmt] at hsome
          cases hsome
      exact ih hkm hsome

/-- Any all-`p` prefix is at most as long as the `takeWhile p` prefix. -/
theorem prefix_length_le_takeWhile {p : Char → Bool} :
    ∀ (pre rest : List Char), (∀ c ∈ pre, p c = true) →
      pre.length ≤ ((pre ++ rest).takeWhile p).length := by
  intro pre
  induction pre with
  | nil => intro rest _; exact Nat.zero_le _
  | cons c cs ih =>
    intro rest hall
    rw [List.cons_append, List.takeWhile_cons]
    rw [hall c (List.mem_cons_self c cs)]
    simpa using ih rest fun x hx => hall x (List.mem_cons_of_mem c hx)

/-- Characters of `cs.take k` satisfy `p` when `k` is within the
`takeWhile p` prefix. -/
theorem take_all_of_le_takeWhile {p : Char → Bool} {cs : List Char} {k : Nat}
    (hk : k ≤ (cs.takeWhile p).length) : ∀ c ∈ cs.take k, p c = true := by
  intro c hc
  have hsplit : cs = cs.takeWhile p ++ cs.dropWhile p :=
    (List.takeWhile_append_dropWhile p cs).symm
  have : cs.take k = (cs.takeWhile p).take k := by
    conv_lhs => rw [hsplit]
    exact List.take_append_of_le_length hk
  rw [this] at hc
  exact List.mem_takeWhile_imp (List.take_subset k _ hc)

/-- `Model.parse_line` unfolded. -/
theorem parse_line_eq (flags : Flags) (line : String) :
    parse_line flags line =
      match tryName line.toList
          ((line.toList.takeWhile (fun c => c != ';')).length) with
      | none => none
      | some (name, hex) =>
        if flags.exchange then
          some ((name.map exchChar).asString, (hex.map asciiUpper).asString)
        else
          some (name.asString, (hex.map asciiUpper).asString) := rfl

/-- C6: `Model.parse_line` accepts a line iff it is name + single whitespace
+ exactly 8 hex digits + optional trailing whitespace, with the name free of
the `;` separator; the returned checksum is uppercased; exchange mode only
rewrites backslashes of the name to forward slashes; non-matching lines
produce no entry in the sfv loop. -/
theorem parse_line_format (flags : Flags) (line : String) :
    ((parse_line flags line).isSome = true ↔ goodLine line.toList)
    ∧ (∀ n c, parse_line flags line = some (n, c) →
        c.toList.length = 8 ∧ c.toList.all isUpperHex = true)
    ∧ (parse_line { flags with exchange := true } line
        = (parse_line { flags with exchange := false } line).map
            (fun p => ((p.1.toList.map exchChar).asString, p.2)))
    ∧ (∀ ncf crcs, parse_line flags line = none →
        procLine flags ncf crcs line = crcs) := by
  cases ht : tryName line.toList
      ((line.toList.takeWhile (fun c => c != ';')).length) with
  | some p =>
    obtain ⟨name, hex⟩ := p
    obtain ⟨k, hk1, hkn, hname, hmt⟩ := tryName_sound ht
    obtain ⟨w, trail, hdecomp, hw, hlen, hhex, htrail⟩ := matchTail_sound hmt
    have hsome : ∃ v, parse_line flags line = some v := by
      rw [parse_line_eq, ht]
      cases hfe : flags.exchange <;> simp [hfe]
    refine ⟨⟨fun _ => ?_, fun _ => ?_⟩, fun n c hc => ?_, ?_, fun ncf crcs hnone => ?_⟩
    · -- goodLine from the successful scan
      have hkcs : k ≤ line.toList.length :=
        Nat.le_trans hkn (List.takeWhile_prefix _).length_le
      refine ⟨line.toList.take k, w, hex, trail, ?_, ?_, ?_, hw, hlen, hhex, htrail⟩
      · rw [← hdecomp, List.take_append_drop]
      · have : (line.toList.take k).length = k := by
          rw [List.length_take]
          omega
        intro hnil
        rw [hnil] at this
        simp at this
        omega
      · intro c hc
        have := take_all_of_le_takeWhile hkn c hc
        simpa using this
    · obtain ⟨v, hv⟩ := hsome
      simp [hv]
    · have hcrc : c = (hex.map asciiUpper).asString := by
        rw [parse_line_eq, ht] at hc
        cases hfe : flags.exchange <;> rw [hfe] at hc <;> simp at hc <;>
          exact hc.2.symm
      subst hcrc
      have htl : ((hex.map asciiUpper).asString).toList = hex.map asciiUpper := rfl
      rw [htl]
      constructor
      · rw [List.length_map]
        exact hlen
      · rw [List.all_map]
        exact List.all_eq_true.mpr fun c hc =>
          isUpperHex_asciiUpper (List.all_eq_true.mp hhex c hc)
    · rw [parse_line_eq, ht, parse_line_eq, ht]
      simp
      rfl
    · obtain ⟨v, hv⟩ := hsome
      rw [hv] at hnone
      cases hnone
  | none =>
    have hpl : parse_line flags line = none := by rw [parse_line_eq, ht]
    refine ⟨⟨fun hs => ?_, fun hg => ?_⟩, fun n c hc => ?_, ?_, fun ncf crcs _ => ?_⟩
    · rw [hpl] at hs
      cases hs
    · exfalso
      obtain ⟨name, w, hex, trail, heq, hne, hsemi, hw, hlen, hhex, htrail⟩ := hg
      have hmt : matchTail (line.toList.drop name.length) = some hex := by
        have hd : line.toList.drop name.length = w :: (hex ++ trail) := by
          rw [heq]
          exact List.drop_left name _
        rw [hd]
        exact matchTail_complete hw hlen hhex htrail
      have hk1 : 1 ≤ name.length := List.length_pos.mpr hne
      have hkn : name.length ≤
          ((line.toList.takeWhile (fun c => c != ';')).length) := by
        rw [heq]
        exact prefix_length_le_takeWhile name _ fun c hc => by
          simpa using hsemi c hc
      have := tryName_complete hk1 hkn (by rw [hmt]; rfl)
      rw [ht] at this
      cases this
    · rw [hpl] at hc
      cases hc
    · rw [parse_line_eq, ht, parse_line_eq, ht]
      rfl
    · rw [procLine, hpl]

/-- Witness for C6: the line `"a 90abcdef \n"` parses with an uppercased
checksum of 8 uppercase hex digits, and the non-matching line
`"not a line"` contributes nothing in the sfv loop. -/
theorem parse_line_format_witness :
    ("90ABCDEF".toList.length = 8 ∧ "90ABCDEF".toList.all isUpperHex = true)
    ∧ procLine flagsNoI [] [] "not a line" = [] :=
  ⟨(parse_line_format flagsNoI "a 90abcdef \n").2.1 "a" "90ABCDEF" (by rfl),
   (parse_line_format flagsNoI "not a line").2.2.2 [] [] (by rfl)⟩

/-! ## `dict` lemmas -/

theorem dictGet_insert_self (m : List (String × String)) (k v : String) :
    dictGet (dictInsert m k v) k = some v := by
  induction m with
  | nil => simp [dictInsert, dictGet]
  | cons q rest ih =>
    obtain ⟨k', v'⟩ := q
    rw [dictInsert]
    by_cases hk : k' = k
    · rw [if_pos hk, dictGet, if_pos rfl]
    · rw [if_neg hk, dictGet, if_neg hk]
      exact ih

theorem dictGet_insert_other (m : List (String × String)) {k k' : String}
    (v : String) (hne : k' ≠ k) :
    dictGet (dictInsert m k v) k' = dictGet m k' := by
  induction m with
  | nil =>
    show dictGet [(k, v)] k' = none
    simp only [dictGet]
    rw [if_neg (fun h : k = k' => hne h.symm)]
  | cons q rest ih =>
    obtain ⟨k₀, v₀⟩ := q
    rw [dictInsert]
    by_cases hk : k₀ = k
    · rw [if_pos hk, dictGet, dictGet,
        if_neg (fun h : k = k' => hne h.symm),
        if_neg (fun h : k₀ = k' => hne ((hk.symm.trans h)).symm)]
    · rw [if_neg hk, dictGet, dictGet]
      by_cases hk' : k₀ = k'
      · rw [if_pos hk', if_pos hk']
      · rw [if_neg hk', if_neg hk']
        exact ih

theorem dictGet_insert_isSome_mono {m : List (String × String)} {k : String}
    (k' v : String) (h : (dictGet m k).isSome = true) :
    (dictGet (dictInsert m k' v) k).isSome = true := by
  by_cases hk : k = k'
  · subst hk
    rw [dictGet_insert_self]
    rfl
  · rw [dictGet_insert_other m v (fun hx => hk hx)]
    exact h

/-! ## `get_crcs` lemmas -/

/-- The filename pass does not touch keys outside the candidate list. -/
theorem crcPass_not_mem {k : String} :
    ∀ (l : List String) (m : List (String × String)), k ∉ l →
      dictGet (crcPass l m) k = dictGet m k := by
  intro l
  induction l with
  | nil => intro m _; rfl
  | cons x xs ih =>
    intro m hk
    have hx : x ≠ k := fun h => hk (h ▸ List.mem_cons_self x xs)
    have hk' : k ∉ xs := fun h => hk (List.mem_cons_of_mem x h)
    rw [crcPass, List.foldl_cons]
    have h2 := ih (match parse x with
      | some crc => dictInsert m x crc
      | none => m) hk'
    rw [crcPass] at h2
    rw [h2]
    cases parse x with
    | some c => exact dictGet_insert_other m c (fun h => hx h.symm)
    | none => rfl

/-- After the filename pass, a candidate file whose name parses maps to its
filename-embedded checksum, whatever was there before. -/
theorem crcPass_get_of_parse {k c : String} (hp : parse k = some c) :
    ∀ (l : List String) (m : List (String × String)), k ∈ l →
      dictGet (crcPass l m) k = some c := by
  intro l
  induction l with
  | nil => intro m h; cases h
  | cons x xs ih =>
    intro m hmem
    by_cases hin : k ∈ xs
    · rw [crcPass, List.foldl_cons]
      have := ih (match parse x with
        | some crc => dictInsert m x crc
        | none => m) hin
      rw [crcPass] at this
      exact this
    · have hx : x = k := by
        rcases List.mem_cons.mp hmem with h | h
        · exact h.symm
        · exact absurd h hin
      subst hx
      rw [crcPass, List.foldl_cons, hp]
      have := crcPass_not_mem xs (dictInsert m x c) hin
      rw [crcPass] at this
      rw [this, dictGet_insert_self]

/-- Keys present after the filename pass were present before or name a
candidate file. -/
theorem crcPass_origin {k : String} :
    ∀ (l : List String) (m : List (String × String)),
      (dictGet (crcPass l m) k).isSome = true →
      (dictGet m k).isSome = true ∨ k ∈ l := by
  intro l
  induction l with
  | nil => intro m h; exact Or.inl h
  | cons x xs ih =>
    intro m h
    rw [crcPass, List.foldl_cons] at h
    have h' := ih _ (by rw [crcPass]; exact h)
    rcases h' with h' | h'
    · cases hp : parse x with
      | some c =>
        rw [hp] at h'
        by_cases hk : k = x
        · exact Or.inr (hk ▸ List.mem_cons_self x xs)
        · rw [dictGet_insert_other m c hk] at h'
          exact Or.inl h'
      | none =>
        rw [hp] at h'
        exact Or.inl h'
    · exact Or.inr (List.mem_cons_of_mem x h')

/-- The filename pass preserves existing keys. -/
theorem crcPass_isSome_mono {k : String} :
    ∀ (l : List String) (m : List (String × String)),
      (dictGet m k).isSome = true →
      (dictGet (crcPass l m) k).isSome = true := by
  intro l
  induction l with
  | nil => intro m h; exact h
  | cons x xs ih =>
    intro m h
    rw [crcPass, List.foldl_cons]
    have step : (dictGet (match parse x with
        | some crc => dictInsert m x crc
        | none => m) k).isSome = true := by
      cases hp : parse x with
      | some c => exact dictGet_insert_isSome_mono x c h
      | none => exact h
    have := ih _ step
    rw [crcPass] at this
    exact this

/-- C4: when both extraction sources are enabled and both yield a checksum
for the same file name, the mapping returned by `get_crcs` holds the
filename-embedded value — the filename pass runs after the sfv pass and the
later write wins. -/
theorem filename_crc_overrides (flags : Flags) (d : Dir)
    (file_names : List String) (n c : String)
    (hcrc : flags.crc = true)
    (hmem : n ∈ file_names) (hfile : isfile (d.files n) = true)
    (hparse : parse n = some c)
    (_hsfv : (dictGet (get_crcs { flags with crc := false } d file_names)
      n).isSome = true) :
    dictGet (get_crcs flags d file_names) n = some c := by
  rw [get_crcs, if_pos hcrc]
  exact crcPass_get_of_parse hparse _ _
    (List.mem_filter.mpr ⟨hmem, hfile⟩)

/-- Witness for C4: `dup[12345678].bin` is listed in an sfv file with
checksum `90ABCDEF` but carries `12345678` in its own name; the returned
mapping holds `12345678`. -/
theorem filename_crc_overrides_witness :
    dictGet (get_crcs flagsWithI dirDup ["dup[12345678].bin", "check.sfv"])
      "dup[12345678].bin" = some "12345678" :=
  filename_crc_overrides flagsWithI dirDup ["dup[12345678].bin", "check.sfv"]
    "dup[12345678].bin" "12345678" (by decide)
    (by decide) (by decide) (by decide) (by decide)

/-- C1 (code evaluation at the failing input): with `-i` on the command
line (`flags.case = True`) the list-file entry `FILE.BIN` is stored verbatim
and is not matched to the on-disk file `file.bin`; without `-i` the entry is
matched case-insensitively and stored under the on-disk name.  The wiring is
the reverse of the option's documented meaning. -/
theorem get_crcs_ignore_case_inverted :
    get_crcs flagsWithI dirCase ["file.bin", "check.sfv"]
        = [("FILE.BIN", "12345678")]
    ∧ get_crcs flagsNoI dirCase ["file.bin", "check.sfv"]
        = [("file.bin", "12345678")] := by
  constructor <;> decide

/-! ## sfv-pass lemmas -/

theorem procLine_isSome_mono {k : String} (flags : Flags)
    (ncf m : List (String × String)) (line : String)
    (h : (dictGet m k).isSome = true) :
    (dictGet (procLine flags ncf m line) k).isSome = true := by
  rw [procLine]
  cases parse_line flags line with
  | none => exact h
  | some p =>
    obtain ⟨fname, crc⟩ := p
    show (dictGet (match flags.case', dictGet ncf (lowerStr fname) with
      | false, some real => dictInsert m real crc
      | _, _ => dictInsert m fname crc) k).isSome = true
    cases flags.case' with
    | true => exact dictGet_insert_isSome_mono fname crc h
    | false =>
      cases dictGet ncf (lowerStr fname) with
      | some real => exact dictGet_insert_isSome_mono real crc h
      | none => exact dictGet_insert_isSome_mono fname crc h

theorem foldl_procLine_isSome_mono {k : String} (flags : Flags)
    (ncf : List (String × String)) :
    ∀ (ls : List String) (m : List (String × String)),
      (dictGet m k).isSome = true →
      (dictGet (ls.foldl (procLine flags ncf) m) k).isSome = true := by
  intro ls
  induction ls with
  | nil => intro m h; exact h
  | cons l' ls' ih =>
    intro m h
    rw [List.foldl_cons]
    exact ih _ (procLine_isSome_mono flags ncf m l' h)

/-- A parsed line whose (lowercased) name has no real-file match leaves an
entry under the parsed name, and the entry survives the rest of the loop. -/
theorem foldl_procLine_key (flags : Flags) (ncf : List (String × String))
    {line n c : String}
    (hpl : parse_line flags line = some (n, c))
    (hred : flags.case' = false → dictGet ncf (lowerStr n) = none) :
    ∀ (ls : List String) (m : List (String × String)), line ∈ ls →
      (dictGet (ls.foldl (procLine flags ncf) m) n).isSome = true := by
  intro ls
  induction ls with
  | nil => intro m h; cases h
  | cons l' ls' ih =>
    intro m hmem
    rw [List.foldl_cons]
    by_cases hin : line ∈ ls'
    · exact ih _ hin
    · have hl : l' = line := by
        rcases List.mem_cons.mp hmem with h | h
        · exact h.symm
        · exact absurd h hin
      subst hl
      apply foldl_procLine_isSome_mono
      rw [procLine, hpl]
      show (dictGet (match flags.case', dictGet ncf (lowerStr n) with
        | false, some real => dictInsert m real c
        | _, _ => dictInsert m n c) n).isSome = true
      cases hc : flags.case' with
      | true =>
        show (dictGet (dictInsert m n c) n).isSome = true
        rw [dictGet_insert_self]
        rfl
      | false =>
        rw [hred hc]
        show (dictGet (dictInsert m n c) n).isSome = true
        rw [dictGet_insert_self]
        rfl

theorem sfv_fold_isSome_mono {k : String} (flags : Flags)
    (ncf : List (String × String)) (d : Dir) :
    ∀ (sfl : List String) (m : List (String × String)),
      (dictGet m k).isSome = true →
      (dictGet (sfl.foldl
        (fun crcs s => (d.lines s).foldl (procLine flags ncf) crcs) m)
        k).isSome = true := by
  intro sfl
  induction sfl with
  | nil => intro m h; exact h
  | cons s rest ih =>
    intro m h
    rw [List.foldl_cons]
    exact ih _ (foldl_procLine_isSome_mono flags ncf (d.lines s) m h)

theorem sfv_fold_key (flags : Flags) (ncf : List (String × String)) (d : Dir)
    {sf line n c : String}
    (hpl : parse_line flags line = some (n, c))
    (hred : flags.case' = false → dictGet ncf (lowerStr n) = none)
    (hline : line ∈ d.lines sf) :
    ∀ (sfl : List String) (m : List (String × String)), sf ∈ sfl →
      (dictGet (sfl.foldl
        (fun crcs s => (d.lines s).foldl (procLine flags ncf) crcs) m)
        n).isSome = true := by
  intro sfl
  induction sfl with
  | nil => intro m h; cases h
  | cons s rest ih =>
    intro m hmem
    rw [List.foldl_cons]
    by_cases hin : sf ∈ rest
    · exact ih _ hin
    · have hs : s = sf := by
        rcases List.mem_cons.mp hmem with h | h
        · exact h.symm
        · exact absurd h hin
      subst hs
      exact sfv_fold_isSome_mono flags ncf d rest _
        (foldl_procLine_key flags ncf hpl hred (d.lines s) m hline)

/-- Disabling the filename pass leaves exactly the sfv pass. -/
theorem get_crcs_crc_false (flags : Flags) (d : Dir)
    (file_names : List String) :
    get_crcs { flags with crc := false } d file_names
      = sfvPass flags d (existingFiles d file_names) := rfl

/-- C10: a list-file entry naming no existing candidate (exactly, or by
lowercase key when the no-case branch applies) is still stored in the
mapping under its parsed name; verification then classifies that name as
Missing exactly when the open fails with errno 2; and the filename pass, by
contrast, only ever contributes keys that name existing files. -/
theorem sfv_entry_kept_and_missing (flags : Flags) (d : Dir)
    (file_names : List String) (sf line n c crcv : String)
    (block_size : Nat) (st : Status) (evs : List Event)
    (hsfv : flags.sfv = true)
    (hsf : sf ∈ existingFiles d file_names) (hsfn : isSfvName sf = true)
    (hline : line ∈ d.lines sf)
    (hpl : parse_line flags line = some (n, c))
    (hred : flags.case' = false →
      dictGet (noCaseFiles (existingFiles d file_names)) (lowerStr n) = none) :
    (dictGet (get_crcs flags d file_names) n).isSome = true
    ∧ (checkFile d block_size (st, evs) (n, crcv)
        = .ok ({ st with nr_missing := st.nr_missing + 1 },
            evs ++ [.fileMissing n])
      ↔ crc32_of_file_fs d n block_size = .error (.ioError 2))
    ∧ (∀ k, (dictGet (get_crcs flags d file_names) k).isSome = true →
        (dictGet (get_crcs { flags with crc := false } d file_names)
          k).isSome = true
        ∨ isfile (d.files k) = true) := by
  have hkey : (dictGet (sfvPass flags d (existingFiles d file_names))
      n).isSome = true := by
    rw [sfvPass]
    have hmemf : sf ∈ (existingFiles d file_names).filter isSfvName :=
      List.mem_filter.mpr ⟨hsf, hsfn⟩
    rw [if_pos ⟨fun he => List.ne_nil_of_mem hmemf (List.isEmpty_iff.mp he),
      hsfv⟩]
    exact sfv_fold_key flags _ d hpl hred hline _ [] hmemf
  refine ⟨?_, ?_, ?_⟩
  · rw [get_crcs]
    by_cases hcrc : flags.crc = true
    · rw [if_pos hcrc]
      exact crcPass_isSome_mono _ _ hkey
    · rw [if_neg hcrc]
      exact hkey
  · constructor
    · intro heq
      cases hcf : crc32_of_file_fs d n block_size with
      | ok r =>
        exfalso
        simp only [checkFile, hcf] at heq
        by_cases hr : crcv = r
        · rw [if_pos hr] at heq
          simp at heq
        · rw [if_neg hr] at heq
          simp at heq
      | error e =>
        cases e with
        | valueError =>
          exfalso
          simp only [checkFile, hcf] at heq
          cases heq
        | ioError errno =>
          by_cases h2 : errno = 2
          · rw [h2]
          · exfalso
            simp only [checkFile, hcf] at heq
            rw [if_neg h2] at heq
            simp at heq
    · intro hcf
      simp only [checkFile, hcf]
      rw [if_pos trivial]
  · intro k hk
    rw [get_crcs_crc_false]
    rw [get_crcs] at hk
    by_cases hcrc : flags.crc = true
    · rw [if_pos hcrc] at hk
      rcases crcPass_origin _ _ hk with h | h
      · exact Or.inl h
      · exact Or.inr (List.mem_filter.mp h).2
    · rw [if_neg hcrc] at hk
      exact Or.inl hk

/-- Witness for C10: `check.sfv` references the absent `ghost.bin`; the
entry is kept in the mapping and classified Missing. -/
theorem sfv_entry_kept_and_missing_witness :
    (dictGet (get_crcs flagsWithI dirGhost ["check.sfv"]) "ghost.bin").isSome
        = true
    ∧ (checkFile dirGhost 8192 (Status.init 1, []) ("ghost.bin", "12345678")
        = .ok ({ Status.init 1 with nr_missing := 1 },
            [] ++ [.fileMissing "ghost.bin"])
      ↔ crc32_of_file_fs dirGhost "ghost.bin" 8192 = .error (.ioError 2)) := by
  have h := sfv_entry_kept_and_missing flagsWithI dirGhost ["check.sfv"]
    "check.sfv" "ghost.bin 12345678\n" "ghost.bin" "12345678" "12345678"
    8192 (Status.init 1) []
    (by decide) (by decide) (by decide) (by decide) (by rfl)
    (by intro hx; cases hx)
  exact ⟨h.1, h.2.1⟩

/-- C3 (code evaluation at the failing input): a zero-length file with an
expected checksum makes `mmap` raise `ValueError`, which the `except
IOError` handler does not catch — `check_dir` aborts instead of classifying
the file and continuing. -/
theorem check_dir_empty_file_value_error :
    check_dir flagsNoI dirEmptyFile "." ["empty_00000000_.bin"] 8192
      = .error .valueError := by rfl

/-! ## Counting lemmas for `check_dir` and the run loop -/

theorem cntMissing_append (a b : List Event) :
    cntMissing (a ++ b) = cntMissing a + cntMissing b := by
  induction a with
  | nil => simp [cntMissing]
  | cons e r ih => cases e <;> simp [cntMissing, ih] <;> omega

theorem cntDifferent_append (a b : List Event) :
    cntDifferent (a ++ b) = cntDifferent a + cntDifferent b := by
  induction a with
  | nil => simp [cntDifferent]
  | cons e r ih => cases e <;> simp [cntDifferent, ih] <;> omega

theorem cntReadError_append (a b : List Event) :
    cntReadError (a ++ b) = cntReadError a + cntReadError b := by
  induction a with
  | nil => simp [cntReadError]
  | cons e r ih => cases e <;> simp [cntReadError, ih] <;> omega

theorem cntOk_append (a b : List Event) :
    cntOk (a ++ b) = cntOk a + cntOk b := by
  induction a with
  | nil => simp [cntOk]
  | cons e r ih => cases e <;> simp [cntOk, ih] <;> omega

/-- The four possible successful outcomes of one file check: exactly one
counter goes up by one and exactly one matching hook event is appended. -/
theorem checkFile_cases (d : Dir) (bs : Nat) (aSt : Status)
    (aEvs : List Event) (p : String × String) {acc' : Status × List Event}
    (h : checkFile d bs (aSt, aEvs) p = .ok acc') :
    acc' = ({ aSt with nr_missing := aSt.nr_missing + 1 },
        aEvs ++ [.fileMissing p.1])
    ∨ acc' = ({ aSt with nr_read_errors := aSt.nr_read_errors + 1 },
        aEvs ++ [.fileReadError p.1])
    ∨ acc' = ({ aSt with nr_successful := aSt.nr_successful + 1 },
        aEvs ++ [.fileOk p.1])
    ∨ ∃ r, acc' = ({ aSt with nr_different := aSt.nr_different + 1 },
        aEvs ++ [.fileDifferent p.1 p.2 r]) := by
  cases hcf : crc32_of_file_fs d p.1 bs with
  | error e =>
    cases e with
    | ioError errno =>
      simp only [checkFile, hcf] at h
      by_cases h2 : errno = 2
      · rw [if_pos h2] at h
        injection h with h'
        exact Or.inl h'.symm
      · rw [if_neg h2] at h
        injection h with h'
        exact Or.inr (Or.inl h'.symm)
    | valueError =>
      simp only [checkFile, hcf] at h
      cases h
  | ok r =>
    simp only [checkFile, hcf] at h
    by_cases hr : p.2 = r
    · rw [if_pos hr] at h
      injection h with h'
      exact Or.inr (Or.inr (Or.inl h'.symm))
    · rw [if_neg hr] at h
      injection h with h'
      exact Or.inr (Or.inr (Or.inr ⟨r, h'.symm⟩))

/-- The file loop: the final status counters are the initial ones plus the
counts of the newly fired events, one event per processed file. -/
theorem foldFiles_spec (d : Dir) (bs : Nat) :
    ∀ (ps : List (String × String)) (aSt : Status) (aEvs : List Event)
      (st : Status) (evs : List Event),
      foldFiles d bs (aSt, aEvs) ps = .ok (st, evs) →
      ∃ new, evs = aEvs ++ new
        ∧ st.nr_missing = aSt.nr_missing + cntMissing new
        ∧ st.nr_different = aSt.nr_different + cntDifferent new
        ∧ st.nr_read_errors = aSt.nr_read_errors + cntReadError new
        ∧ st.nr_successful = aSt.nr_successful + cntOk new
        ∧ st.nr_files = aSt.nr_files
        ∧ st.nr_dirs = aSt.nr_dirs
        ∧ cntMissing new + cntDifferent new + cntReadError new + cntOk new
            = ps.length := by
  intro ps
  induction ps with
  | nil =>
    intro aSt aEvs st evs h
    rw [foldFiles] at h
    injection h with h'
    injection h' with h1 h2
    subst h1
    subst h2
    exact ⟨[], by simp, by simp [cntMissing], by simp [cntDifferent],
      by simp [cntReadError], by simp [cntOk], rfl, rfl,
      by simp [cntMissing, cntDifferent, cntReadError, cntOk]⟩
  | cons p ps ih =>
    intro aSt aEvs st evs h
    rw [foldFiles] at h
    cases hcf : checkFile d bs (aSt, aEvs) p with
    | error e =>
      rw [hcf] at h
      cases h
    | ok acc' =>
      rw [hcf] at h
      obtain ⟨aSt', aEvs'⟩ := acc'
      obtain ⟨new', hevs, hm, hd, hre, hok, hf, hdirs, hsum⟩ :=
        ih aSt' aEvs' st evs h
      rcases checkFile_cases d bs aSt aEvs p hcf with hc | hc | hc | ⟨r, hc⟩ <;>
        [(injection hc with hc1 hc2);
         (injection hc with hc1 hc2);
         (injection hc with hc1 hc2);
         (injection hc with hc1 hc2)] <;>
        subst hc1 <;> subst hc2
      · refine ⟨.fileMissing p.1 :: new', by simp [hevs], ?_, ?_, ?_, ?_, ?_, ?_, ?_⟩ <;>
          simp [cntMissing, cntDifferent, cntReadError, cntOk] at hm hd hre hok hf hdirs hsum ⊢ <;>
          omega
      · refine ⟨.fileReadError p.1 :: new', by simp [hevs], ?_, ?_, ?_, ?_, ?_, ?_, ?_⟩ <;>
          simp [cntMissing, cntDifferent, cntReadError, cntOk] at hm hd hre hok hf hdirs hsum ⊢ <;>
          omega
      · refine ⟨.fileOk p.1 :: new', by simp [hevs], ?_, ?_, ?_, ?_, ?_, ?_, ?_⟩ <;>
          simp [cntMissing, cntDifferent, cntReadError, cntOk] at hm hd hre hok hf hdirs hsum ⊢ <;>
          omega
      · refine ⟨.fileDifferent p.1 p.2 r :: new', by simp [hevs], ?_, ?_, ?_, ?_, ?_, ?_, ?_⟩ <;>
          simp [cntMissing, cntDifferent, cntReadError, cntOk] at hm hd hre hok hf hdirs hsum ⊢ <;>
          omega

theorem insertSorted_length (p : String × String) :
    ∀ l : List (String × String), (insertSorted p l).length = l.length + 1 := by
  intro l
  induction l with
  | nil => rfl
  | cons q qs ih =>
    rw [insertSorted]
    by_cases hlt : strLt p.1 q.1 = true
    · rw [if_pos hlt]
      rfl
    · rw [if_neg hlt, List.length_cons, List.length_cons, ih]

theorem sortByKey_length :
    ∀ l : List (String × String), (sortByKey l).length = l.length := by
  intro l
  induction l with
  | nil => rfl
  | cons q qs ih =>
    rw [sortByKey, List.foldr_cons, insertSorted_length]
    rw [sortByKey] at ih
    rw [ih, List.length_cons]

/-- `check_dir` on a non-empty mapping: the directory status counters equal
the counts of the fired per-file hook events, and the four per-file counters
sum to the files-tested counter. -/
theorem check_dir_spec (flags : Flags) (d : Dir) (dirname : String)
    (file_names : List String) (bs : Nat) {st : Status} {evs : List Event}
    (h : check_dir flags d dirname file_names bs = .ok (some (st, evs))) :
    st.nr_missing = cntMissing evs ∧ st.nr_different = cntDifferent evs
    ∧ st.nr_read_errors = cntReadError evs ∧ st.nr_successful = cntOk evs
    ∧ st.nr_missing + st.nr_different + st.nr_read_errors + st.nr_successful
        = st.nr_files := by
  rw [check_dir] at h
  by_cases he : (get_crcs flags d file_names).isEmpty = true
  · rw [if_pos he] at h
    injection h with h'
    cases h'
  · rw [if_neg he] at h
    cases hf : foldFiles d bs
        (Status.init (get_crcs flags d file_names).length,
          [.directoryStart dirname])
        (sortByKey (get_crcs flags d file_names)) with
    | error e =>
      rw [hf] at h
      cases h
    | ok pr =>
      obtain ⟨st', evs'⟩ := pr
      rw [hf] at h
      injection h with h'
      injection h' with h''
      injection h'' with h1 h2
      subst h1
      obtain ⟨new, hevs, hm, hd, hre, hok, hfl, hdirs, hsum⟩ :=
        foldFiles_spec d bs _ _ _ _ _ hf
      subst hevs
      subst h2
      have hlen : (sortByKey (get_crcs flags d file_names)).length
          = (get_crcs flags d file_names).length := sortByKey_length _
      refine ⟨?_, ?_, ?_, ?_, ?_⟩ <;>
        simp [cntMissing_append, cntDifferent_append, cntReadError_append,
          cntOk_append, cntMissing, cntDifferent, cntReadError, cntOk,
          Status.init] at hm hd hre hok hfl hsum ⊢ <;>
        omega

/-- The run loop: the total status is the exact componentwise sum of the
completed directory statuses, and the run-wide events are their
concatenation, with matching counts. -/
theorem runUnits_spec (flags : Flags) (bs : Nat) :
    ∀ (units : List RunUnit) (aSt : Status) (aEvs : List Event)
      (tot : Status) (evs : List Event),
      runUnits flags bs (aSt, aEvs) units = .ok (tot, evs) →
      tot.nr_missing = aSt.nr_missing
          + ((unitStats flags bs units).map Status.nr_missing).sum
      ∧ tot.nr_different = aSt.nr_different
          + ((unitStats flags bs units).map Status.nr_different).sum
      ∧ tot.nr_read_errors = aSt.nr_read_errors
          + ((unitStats flags bs units).map Status.nr_read_errors).sum
      ∧ tot.nr_successful = aSt.nr_successful
          + ((unitStats flags bs units).map Status.nr_successful).sum
      ∧ tot.nr_files = aSt.nr_files
          + ((unitStats flags bs units).map Status.nr_files).sum
      ∧ tot.nr_dirs = aSt.nr_dirs + (unitStats flags bs units).length
      ∧ ∃ new, evs = aEvs ++ new
          ∧ cntMissing new
              = ((unitStats flags bs units).map Status.nr_missing).sum
          ∧ cntDifferent new
              = ((unitStats flags bs units).map Status.nr_different).sum
          ∧ cntReadError new
              = ((unitStats flags bs units).map Status.nr_read_errors).sum := by
  intro units
  induction units with
  | nil =>
    intro aSt aEvs tot evs h
    rw [runUnits] at h
    injection h with h'
    injection h' with h1 h2
    subst h1
    subst h2
    simp [unitStats, cntMissing, cntDifferent, cntReadError]
  | cons u us ih =>
    intro aSt aEvs tot evs h
    rw [runUnits] at h
    have hunit : unitStats flags bs (u :: us)
        = (match check_dir flags u.dir u.dirname u.file_names bs with
          | .ok (some (dir_stat, _)) => some dir_stat
          | _ => none).toList ++ unitStats flags bs us := by
      rw [unitStats, List.filterMap_cons]
      cases check_dir flags u.dir u.dirname u.file_names bs with
      | error e => rfl
      | ok o =>
        cases o with
        | none => rfl
        | some pr => rfl
    cases hcd : check_dir flags u.dir u.dirname u.file_names bs with
    | error e =>
      rw [hcd] at h
      cases h
    | ok o =>
      rw [hcd] at h
      rw [hcd] at hunit
      cases o with
      | none =>
        simp only [Option.toList, List.nil_append] at hunit
        obtain ⟨m1, m2, m3, m4, m5, m6, new, hevs, c1, c2, c3⟩ :=
          ih aSt aEvs tot evs h
        rw [hunit]
        exact ⟨m1, m2, m3, m4, m5, m6, new, hevs, c1, c2, c3⟩
      | some pr =>
        obtain ⟨stU, evsU⟩ := pr
        simp only [Option.toList, List.singleton_append] at hunit
        obtain ⟨m1, m2, m3, m4, m5, m6, new, hevs, c1, c2, c3⟩ :=
          ih (aSt.update stU) (aEvs ++ evsU) tot evs h
        obtain ⟨u1, u2, u3, u4, usum⟩ := check_dir_spec flags u.dir
          u.dirname u.file_names bs hcd
        rw [hunit]
        refine ⟨?_, ?_, ?_, ?_, ?_, ?_, evsU ++ new, ?_, ?_, ?_, ?_⟩ <;>
          simp [Status.update, cntMissing_append, cntDifferent_append,
            cntReadError_append, hevs]
            at m1 m2 m3 m4 m5 m6 c1 c2 c3 ⊢ <;>
          omega

/-- C5: a file whose streamed checksum computes successfully and equals the
expected value is classified Ok — `file_ok` is the hook fired and
`nr_successful` the counter bumped — and a run in which no file yields a
Missing, ReadError or Mismatch hook call ends with `everything_ok` true. -/
theorem ok_outcome_and_everything_ok :
    (∀ (d : Dir) (bs : Nat) (st : Status) (evs : List Event) (n r : String),
      crc32_of_file_fs d n bs = .ok r →
      checkFile d bs (st, evs) (n, r)
        = .ok ({ st with nr_successful := st.nr_successful + 1 },
            evs ++ [.fileOk n]))
    ∧ (∀ (flags : Flags) (bs : Nat) (units : List RunUnit)
        (tot : Status) (evs : List Event),
      run flags bs units = .ok (tot, evs) →
      cntMissing evs = 0 → cntReadError evs = 0 → cntDifferent evs = 0 →
      tot.everything_ok = true) := by
  constructor
  · intro d bs st evs n r hcf
    simp only [checkFile, hcf]
    rw [if_pos trivial]
  · intro flags bs units tot evs hrun hm hre hd
    obtain ⟨m1, m2, m3, m4, -, -, new, hevs, c1, c2, c3⟩ :=
      runUnits_spec flags bs units (Status.init 0) [] tot evs hrun
    rw [List.nil_append] at hevs
    subst hevs
    rw [Status.everything_ok]
    have : tot.nr_read_errors = 0 ∧ tot.nr_different = 0
        ∧ tot.nr_missing = 0 := by
      simp [Status.init] at m1 m2 m3
      omega
    simp [this.1, this.2.1, this.2.2]

/-- Witness for C5: the matching file `ok[3610A686].bin` (content `"hello"`)
is classified Ok, and the run over the directory holding only that file ends
with `everything_ok` true. -/
theorem ok_outcome_and_everything_ok_witness :
    checkFile dirOk 8192 (Status.init 1, []) ("ok[3610A686].bin", "3610A686")
      = .ok ({ Status.init 1 with nr_successful := 1 },
          [] ++ [.fileOk "ok[3610A686].bin"])
    ∧ Status.everything_ok
        { nr_missing := 0, nr_different := 0, nr_successful := 1,
          nr_read_errors := 0, nr_dirs := 1, nr_files := 1 } = true :=
  ⟨ok_outcome_and_everything_ok.1 dirOk 8192 (Status.init 1) []
      "ok[3610A686].bin" "3610A686" (by rfl),
   ok_outcome_and_everything_ok.2 flagsNoI 8192
      [⟨".", dirOk, ["ok[3610A686].bin"]⟩]
      { nr_missing := 0, nr_different := 0, nr_successful := 1,
        nr_read_errors := 0, nr_dirs := 1, nr_files := 1 }
      [.directoryStart ".", .fileOk "ok[3610A686].bin", .directoryEnd]
      (by rfl) (by rfl) (by rfl) (by rfl)⟩

/-- C8: after `check_dir` completes a unit, the four per-outcome counters of
its directory `Status` sum to its files-tested counter; and the run total —
created once and updated additively by `Status.update` as each directory
completes — is the exact componentwise sum of the completed directory
statuses (with `nr_dirs` counting them), so no counter ever decreases. -/
theorem status_counter_invariants :
    (∀ (flags : Flags) (d : Dir) (dirname : String)
        (file_names : List String) (bs : Nat) (st : Status)
        (evs : List Event),
      check_dir flags d dirname file_names bs = .ok (some (st, evs)) →
      st.nr_missing + st.nr_different + st.nr_read_errors + st.nr_successful
        = st.nr_files)
    ∧ (∀ (flags : Flags) (bs : Nat) (units : List RunUnit)
        (tot : Status) (evs : List Event),
      run flags bs units = .ok (tot, evs) →
      tot.nr_missing = ((unitStats flags bs units).map Status.nr_missing).sum
      ∧ tot.nr_different
          = ((unitStats flags bs units).map Status.nr_different).sum
      ∧ tot.nr_read_errors
          = ((unitStats flags bs units).map Status.nr_read_errors).sum
      ∧ tot.nr_successful
          = ((unitStats flags bs units).map Status.nr_successful).sum
      ∧ tot.nr_files = ((unitStats flags bs units).map Status.nr_files).sum
      ∧ tot.nr_dirs = (unitStats flags bs units).length) := by
  constructor
  · intro flags d dirname file_names bs st evs h
    exact (check_dir_spec flags d dirname file_names bs h).2.2.2.2
  · intro flags bs units tot evs hrun
    obtain ⟨m1, m2, m3, m4, m5, m6, -⟩ :=
      runUnits_spec flags bs units (Status.init 0) [] tot evs hrun
    simp [Status.init] at m1 m2 m3 m4 m5 m6
    exact ⟨m1, m2, m3, m4, m5, m6⟩

/-- Witness for C8 on the mixed directory (one Ok, one Missing): the
directory status `1 + 0 + 0 + 1 = 2` files, and the run total equals the sum
of the single completed directory status. -/
theorem status_counter_invariants_witness :
    ((⟨1, 0, 1, 0, 0, 2⟩ : Status).nr_missing
        + (⟨1, 0, 1, 0, 0, 2⟩ : Status).nr_different
        + (⟨1, 0, 1, 0, 0, 2⟩ : Status).nr_read_errors
        + (⟨1, 0, 1, 0, 0, 2⟩ : Status).nr_successful
      = (⟨1, 0, 1, 0, 0, 2⟩ : Status).nr_files)
    ∧ (⟨1, 0, 1, 0, 1, 2⟩ : Status).nr_dirs
      = (unitStats flagsWithI 8192
          [⟨".", dirMixed, ["ok[3610A686].bin", "m.sfv"]⟩]).length :=
  ⟨status_counter_invariants.1 flagsWithI dirMixed "."
      ["ok[3610A686].bin", "m.sfv"] 8192 ⟨1, 0, 1, 0, 0, 2⟩
      [.directoryStart ".", .fileMissing "gone.bin",
        .fileOk "ok[3610A686].bin", .directoryEnd]
      (by rfl),
   (status_counter_invariants.2 flagsWithI 8192
      [⟨".", dirMixed, ["ok[3610A686].bin", "m.sfv"]⟩] ⟨1, 0, 1, 0, 1, 2⟩
      [.directoryStart ".", .fileMissing "gone.bin",
        .fileOk "ok[3610A686].bin", .directoryEnd]
      (by rfl)).2.2.2.2.2⟩

/-- C9 counterexample: `get_crcs` resolves names by changing the process
working directory, so with caller directory `/a` and target directory `/b`
the working directory observed during the call is not everywhere `/a` — the
claim that it is unchanged at every point fails. -/
theorem get_crcs_cwd_mid_call_changed :
    ¬ (((get_crcs_cwd flagsNoI dirBare "/b" [] "/a").2.2).all
        (fun c => c == "/a") = true) := by
  decide

/-- C9 amended: `get_crcs` temporarily changes the process working directory
to the target directory (it is `dirname` mid-call) and restores the caller's
directory before returning, so the directory after the call equals the one
before, and the returned mapping is that of the pure resolution. -/
theorem get_crcs_cwd_restores (flags : Flags) (d : Dir) (dirname : String)
    (file_names : List String) (cwd : String) :
    (get_crcs_cwd flags d dirname file_names cwd).2.1 = cwd
    ∧ (get_crcs_cwd flags d dirname file_names cwd).1
        = get_crcs flags d file_names
    ∧ (get_crcs_cwd flags d dirname file_names cwd).2.2
        = [cwd, dirname, cwd] :=
  ⟨rfl, rfl, rfl⟩

end Autocrc
